import Mathlib

/-! Verification of the candidate scoring/selection engine and the pipeline
orchestration of `pipeline.py` (scrape → score → brand → upload, with a
Drive-persisted dedupe set `seen.json`).

Modelling conventions:
* Python floats are idealised as exact real arithmetic (`ℝ`); ages and the
  configured thresholds, which only take rational values, are carried as `ℚ`.
* A raw dataset entry (a JSON value) is an `Item`: a JSON object becomes an
  `Obj` holding the typed fields the code reads, each `Option`-valued since a
  field may be absent (or JSON `null`); a non-object entry is `Item.notDict`
  and is skipped by the `isinstance(v, dict)` test.
* The ambient clock enters only through `hours_since`; it is abstracted as a
  parameter `ageOf : String → Option ℚ` (`none` models an unparseable ISO
  string), held fixed for the duration of one run.
* External effects in `main` (Drive, Apify, ffmpeg, the filesystem) are
  oracles in `Env`, each an `Except String` value describing that step's
  outcome; `mainRun` replays `main` against those oracles and records the
  trace of completed stages.
-/

namespace Pipeline

/-- The tunable configuration read once from the environment:
`MIN_VIEWS` and `MAX_AGE_DAYS` (`pipeline.py` lines 42–43). -/
structure Config where
  minViews : Int
  maxAgeDays : Int

/-- `max_age_hours = 24 * MAX_AGE_DAYS` (line 232). -/
def maxAgeHours (cfg : Config) : ℚ := 24 * cfg.maxAgeDays

/-- The typed fields of a raw dataset record that `pipeline.py` reads:
`id`, `createTimeISO`, `playCount`, `diggCount`, `shareCount`,
`webVideoUrl`, plus the `score` key that `score_candidates` writes into the
record (line 266).  `none` models an absent (or `null`) field. -/
structure Obj where
  id : Option String
  createTimeISO : Option String
  playCount : Option Int
  diggCount : Option Int
  shareCount : Option Int
  webVideoUrl : Option String
  score : Option ℝ

/-- One entry of the run-1 dataset: a JSON object, or anything else (the
loop body skips the latter via `isinstance(v, dict)`, line 235). -/
inductive Item where
  | notDict
  | obj (v : Obj)

/-- Python's `str.strip()`: drop leading and trailing whitespace. -/
def pyStrip (s : String) : String :=
  ⟨((s.data.dropWhile Char.isWhitespace).reverse.dropWhile
      Char.isWhitespace).reverse⟩

/-- `str(v.get("id", "")).strip()` (lines 238, 361). -/
def vidOf (v : Obj) : String := pyStrip (v.id.getD "")

/-- `v.get("playCount", 0) or 0` (line 254): absent and `null` both give 0. -/
def viewsOf (v : Obj) : Int := v.playCount.getD 0

/-- `v.get("diggCount", 0) or 0` (line 259). -/
def likesOf (v : Obj) : Int := v.diggCount.getD 0

/-- `v.get("shareCount", 0) or 0` (line 260). -/
def sharesOf (v : Obj) : Int := v.shareCount.getD 0

/-- The scoring arithmetic of lines 262–266:
`vph = views / max(age_h, 1)`, `er = likes/views if views else 0`,
`sr = shares/views if views else 0`,
`score = log10(views + 1) * vph * (er + 2 * sr + 1e-6)`. -/
noncomputable def scoreVal (views likes shares : Int) (ageH : ℚ) : ℝ :=
  Real.logb 10 ((views : ℝ) + 1) * ((views : ℝ) / max (ageH : ℝ) 1) *
    ((if views ≠ 0 then (likes : ℝ) / (views : ℝ) else 0) +
      2 * (if views ≠ 0 then (shares : ℝ) / (views : ℝ) else 0) + 1e-6)

/-- One pass of the filtering loop body of `score_candidates`
(lines 234–267): the five predicates in source order — well-formed object,
dedupe on a non-empty stripped id, presence of a truthy `createTimeISO`,
parseable age not exceeding `max_age_hours`, views at least `MIN_VIEWS` —
and, for a surviving record, the in-place `v["score"] = ...` assignment.
Returns the (mutated) record when it survives, `none` when it is skipped. -/
noncomputable def processItem (cfg : Config) (ageOf : String → Option ℚ)
    (seen : Finset String) : Item → Option Obj
  | .notDict => none
  | .obj v =>
    if vidOf v ≠ "" ∧ vidOf v ∈ seen then none
    else
      match v.createTimeISO with
      | none => none
      | some created =>
        if created = "" then none
        else
          match ageOf created with
          | none => none
          | some ageH =>
            if maxAgeHours cfg < ageH then none
            else
              if viewsOf v < cfg.minViews then none
              else
                some { v with
                  score := some (scoreVal (viewsOf v) (likesOf v) (sharesOf v) ageH) }

/-- `score_candidates` (lines 226–269): the loop appends each surviving
(mutated) record to `filtered`, preserving input order. -/
noncomputable def scoreCandidates (cfg : Config) (ageOf : String → Option ℚ)
    (seen : Finset String) : List Item → List Obj
  | [] => []
  | it :: rest =>
    match processItem cfg ageOf seen it with
    | some w => w :: scoreCandidates cfg ageOf seen rest
    | none => scoreCandidates cfg ageOf seen rest

/-- The state of one dataset entry after the loop pass over it: a surviving
record is mutated in place (`v["score"] = ...`, line 266), a skipped entry is
left untouched. -/
noncomputable def afterPass (cfg : Config) (ageOf : String → Option ℚ)
    (seen : Finset String) (it : Item) : Item :=
  match processItem cfg ageOf seen it with
  | some w => .obj w
  | none => it

/-- The state of the input list after `score_candidates` returns. -/
noncomputable def runItems (cfg : Config) (ageOf : String → Option ℚ)
    (seen : Finset String) (items : List Item) : List Item :=
  items.map (afterPass cfg ageOf seen)

/-- `x.get("score", 0)`, the key of `max` in `pick_winner` (line 274). -/
noncomputable def scoreKey (v : Obj) : ℝ := v.score.getD 0

/-- The message of the `require` in `pick_winner` (line 273). -/
def noCandidatesMsg : String :=
  "No candidates after filtering/scoring. Increase VIDEOS_PER_RUN or lower MIN_VIEWS / MAX_AGE_DAYS."

/-- Python's builtin `max(xs, key=f)` over a non-empty list: scan left to
right, replacing the current best only on a strictly greater key — so ties
keep the first-encountered maximal element. -/
noncomputable def pyMaxBy (key : Obj → ℝ) (x : Obj) (xs : List Obj) : Obj :=
  xs.foldl (fun b a => if key b < key a then a else b) x

/-- `pick_winner` (lines 272–274): `require(bool(scored), ...)` then
`max(scored, key=lambda x: x.get("score", 0))`. -/
noncomputable def pickWinner (scored : List Obj) : Except String Obj :=
  match scored with
  | [] => .error noCandidatesMsg
  | x :: xs => .ok (pyMaxBy scoreKey x xs)

/-- `selectWinner` of the spec: filtering + scoring + picking, the pure
selection core of one run. -/
noncomputable def selectWinner (cfg : Config) (ageOf : String → Option ℚ)
    (seen : Finset String) (items : List Item) : Except String Obj :=
  pickWinner (scoreCandidates cfg ageOf seen items)

/-- The seen-set parse of `load_seen_ids` (line 216) on a decoded JSON array
of strings: `set(str(x) for x in arr if x)` — falsy (empty) strings are
dropped, the rest collected as a set. -/
def loadSeenContent (arr : List String) : Finset String :=
  (arr.filter fun s => s ≠ "").toFinset

/-- The persisted content written by `main` (line 395):
`json.dumps(sorted(seen_ids), ...)` — the set as a sorted array. -/
def saveSeenContent (seen : Finset String) : List String :=
  seen.sort (· ≤ ·)

/-- The stages `main` completes, in the order it logs them.  `recordDedupe`
marks reaching the dedupe-record step (line 393's then-branch: add the
winner's id and persist `seen.json`); `publishOk` marks `drive_upload_mp4`
returning (line 389). -/
inductive Ev where
  | loadDedupe
  | run1Done
  | scoreDone
  | selectDone
  | dryRunExit
  | run2Done
  | acquireDone
  | transformDone
  | publishOk
  | recordDedupe
  | warnNoId
  deriving DecidableEq

/-- The oracle outcomes of one run of `main`: the configuration, the clock,
the dry-run flag and, for each external step, what that step would return
(`Except String` mirrors "returns normally" vs "raises"). -/
structure Env where
  cfg : Config
  ageOf : String → Option ℚ
  dryRun : Bool
  buildDrive : Except String Unit
  loadSeen : Except String (Finset String × Option String)
  run1 : Except String (List Item)
  run2 : Except String Unit
  download : Except String Unit
  inputExists : Bool
  brand : Except String Unit
  outputExists : Bool
  publish : Except String String
  saveSeen : Except String String

/-- `main` (lines 335–399) replayed against the oracles of `env`: the same
linear sequence of stages — build service, load dedupe set, run #1, score,
pick winner, read `webVideoUrl`, dry-run gate, run #2, download (plus the
`input.mp4` existence check), brand (plus the output existence check),
upload, and only then the dedupe record guarded by `if winner_id:`.  The
result pairs the trace of completed stages with the run's outcome. -/
noncomputable def mainRun (env : Env) : List Ev × Except String Unit :=
  match env.buildDrive with
  | .error e => ([], .error e)
  | .ok () =>
  match env.loadSeen with
  | .error e => ([], .error e)
  | .ok (seen, _seenFileId) =>
  match env.run1 with
  | .error e => ([.loadDedupe], .error e)
  | .ok items =>
  let scored := scoreCandidates env.cfg env.ageOf seen items
  match pickWinner scored with
  | .error e => ([.loadDedupe, .run1Done, .scoreDone], .error e)
  | .ok winner =>
  match winner.webVideoUrl with
  | none =>
      ([.loadDedupe, .run1Done, .scoreDone, .selectDone],
        .error "KeyError: webVideoUrl")
  | some _url =>
  if env.dryRun then
    ([.loadDedupe, .run1Done, .scoreDone, .selectDone, .dryRunExit], .ok ())
  else
  match env.run2 with
  | .error e => ([.loadDedupe, .run1Done, .scoreDone, .selectDone], .error e)
  | .ok () =>
  match env.download with
  | .error e =>
      ([.loadDedupe, .run1Done, .scoreDone, .selectDone, .run2Done], .error e)
  | .ok () =>
  if !env.inputExists then
    ([.loadDedupe, .run1Done, .scoreDone, .selectDone, .run2Done],
      .error "input.mp4 missing after download step.")
  else
  match env.brand with
  | .error e =>
      ([.loadDedupe, .run1Done, .scoreDone, .selectDone, .run2Done,
        .acquireDone], .error e)
  | .ok () =>
  if !env.outputExists then
    ([.loadDedupe, .run1Done, .scoreDone, .selectDone, .run2Done,
      .acquireDone], .error "output missing after ffmpeg step.")
  else
  match env.publish with
  | .error e =>
      ([.loadDedupe, .run1Done, .scoreDone, .selectDone, .run2Done,
        .acquireDone, .transformDone], .error e)
  | .ok _driveId =>
  if vidOf winner ≠ "" then
    match env.saveSeen with
    | .error e =>
        ([.loadDedupe, .run1Done, .scoreDone, .selectDone, .run2Done,
          .acquireDone, .transformDone, .publishOk, .recordDedupe], .error e)
    | .ok _fid =>
        ([.loadDedupe, .run1Done, .scoreDone, .selectDone, .run2Done,
          .acquireDone, .transformDone, .publishOk, .recordDedupe], .ok ())
  else
    ([.loadDedupe, .run1Done, .scoreDone, .selectDone, .run2Done,
      .acquireDone, .transformDone, .publishOk, .warnNoId], .ok ())

/-- Division as the Python interpreter executes it: defined only when the
divisor is non-zero (a zero divisor raises `ZeroDivisionError`). -/
noncomputable def checkedDiv (x y : ℝ) : Option ℝ :=
  if y = 0 then none else some (x / y)

/-- The scoring arithmetic of lines 262–266 with every division it actually
performs checked for a zero divisor: `likes/views` and `shares/views` are
evaluated only under the code's `if views` guard, exactly as in the source. -/
noncomputable def scoreValChecked (views likes shares : Int) (ageH : ℚ) :
    Option ℝ := do
  let vph ← checkedDiv (views : ℝ) (max (ageH : ℝ) 1)
  let er ← if views ≠ 0 then checkedDiv (likes : ℝ) (views : ℝ) else some 0
  let sr ← if views ≠ 0 then checkedDiv (shares : ℝ) (views : ℝ) else some 0
  some (Real.logb 10 ((views : ℝ) + 1) * vph * (er + 2 * sr + 1e-6))

/-- Erase the `score` key of a record, for comparing dataset entries up to
the loop's in-place score assignment. -/
def stripScore : Item → Item
  | .notDict => .notDict
  | .obj v => .obj { v with score := none }

/-- A concrete configuration used to instantiate the theorems:
`MIN_VIEWS = 0`, `MAX_AGE_DAYS = 7`. -/
def cfg0 : Config := ⟨0, 7⟩

/-- A concrete clock: every timestamp parses to an age of 2 hours. -/
def age0 : String → Option ℚ := fun _ => some 2

/-- A concrete raw record: id `"a"`, 100 views, 10 likes, 5 shares. -/
def rec0 : Obj := ⟨some "a", some "t", some 100, some 10, some 5, some "u", none⟩

/-- `rec0` as `score_candidates` returns it (its score filled in). -/
noncomputable def win0 : Obj := { rec0 with score := some (scoreVal 100 10 5 2) }

/-- Inversion of one loop pass: a record that `processItem` returns passed
every one of the five predicates, and is the input record with exactly its
`score` key overwritten. -/
lemma processItem_some {cfg : Config} {ageOf : String → Option ℚ}
    {seen : Finset String} {v w : Obj}
    (h : processItem cfg ageOf seen (.obj v) = some w) :
    ¬(vidOf v ≠ "" ∧ vidOf v ∈ seen) ∧
      ∃ created ageH, v.createTimeISO = some created ∧ created ≠ "" ∧
        ageOf created = some ageH ∧ ¬(maxAgeHours cfg < ageH) ∧
        ¬(viewsOf v < cfg.minViews) ∧
        w = { v with
          score := some (scoreVal (viewsOf v) (likesOf v) (sharesOf v) ageH) } := by
  simp only [processItem] at h
  split at h
  next h1 => cases h
  next h1 =>
    split at h
    next hc => cases h
    next created hc =>
      split at h
      next h2 => cases h
      next h2 =>
        split at h
        next ha => cases h
        next ageH ha =>
          split at h
          next h3 => cases h
          next h3 =>
            split at h
            next h4 => cases h
            next h4 =>
              exact ⟨h1, created, ageH, hc, h2, ha, h3, h4, (Option.some.inj h).symm⟩

/-- A record with zero views scores exactly zero. -/
lemma scoreVal_zero (likes shares : Int) (ageH : ℚ) :
    scoreVal 0 likes shares ageH = 0 := by
  simp [scoreVal]

/-- The closed form of the score when views are positive: the `views` of
`velocity` cancels against the denominators of the engagement rates. -/
lemma scoreVal_eq_of_pos (views likes shares : Int) (ageH : ℚ)
    (hv : 0 < views) :
    scoreVal views likes shares ageH =
      Real.logb 10 ((views : ℝ) + 1) *
        (((likes : ℝ) + 2 * (shares : ℝ) + 1e-6 * (views : ℝ)) /
          max (ageH : ℝ) 1) := by
  have hvne : views ≠ 0 := hv.ne'
  have hv' : ((views : Int) : ℝ) ≠ 0 := Int.cast_ne_zero.mpr hvne
  have hA : max ((ageH : ℚ) : ℝ) 1 ≠ 0 :=
    ne_of_gt (lt_of_lt_of_le one_pos (le_max_right _ _))
  rw [scoreVal, if_pos hvne, if_pos hvne]
  field_simp
  ring

/-- The score of a record with non-negative views, likes and shares is
non-negative, whatever its age. -/
lemma scoreVal_nonneg (views likes shares : Int) (ageH : ℚ)
    (h0 : 0 ≤ views) (hl : 0 ≤ likes) (hs : 0 ≤ shares) :
    0 ≤ scoreVal views likes shares ageH := by
  have hA : (0 : ℝ) < max ((ageH : ℚ) : ℝ) 1 :=
    lt_of_lt_of_le one_pos (le_max_right _ _)
  have c0 : (0 : ℝ) ≤ (views : ℝ) := by exact_mod_cast h0
  have cl : (0 : ℝ) ≤ (likes : ℝ) := by exact_mod_cast hl
  have cs : (0 : ℝ) ≤ (shares : ℝ) := by exact_mod_cast hs
  rw [scoreVal]
  apply mul_nonneg (mul_nonneg ?_ ?_) ?_
  · exact Real.logb_nonneg (by norm_num) (by linarith)
  · exact div_nonneg c0 hA.le
  · split_ifs with hv
    · have hv0 : (0 : ℝ) < (views : ℝ) := by
        rcases lt_or_eq_of_le c0 with h | h
        · exact h
        · exact absurd (by exact_mod_cast h.symm) hv
      have d1 : (0 : ℝ) ≤ (likes : ℝ) / (views : ℝ) := div_nonneg cl hv0.le
      have d2 : (0 : ℝ) ≤ (shares : ℝ) / (views : ℝ) := div_nonneg cs hv0.le
      have : (0 : ℝ) < (1e-6 : ℝ) := by norm_num
      linarith
    · norm_num

/-- The score is monotone non-decreasing in views, other inputs fixed. -/
lemma scoreVal_mono (views views' likes shares : Int) (ageH : ℚ)
    (h0 : 0 ≤ views) (h1 : views ≤ views') (hl : 0 ≤ likes) (hs : 0 ≤ shares) :
    scoreVal views likes shares ageH ≤ scoreVal views' likes shares ageH := by
  have hA : (0 : ℝ) < max ((ageH : ℚ) : ℝ) 1 :=
    lt_of_lt_of_le one_pos (le_max_right _ _)
  rcases eq_or_lt_of_le h0 with hz | hpos
  · rw [← hz, scoreVal_zero]
    exact scoreVal_nonneg views' likes shares ageH (le_trans h0 h1) hl hs
  · have hpos' : 0 < views' := lt_of_lt_of_le hpos h1
    rw [scoreVal_eq_of_pos _ _ _ _ hpos, scoreVal_eq_of_pos _ _ _ _ hpos']
    have c0 : (0 : ℝ) < (views : ℝ) := by exact_mod_cast hpos
    have c1 : (views : ℝ) ≤ (views' : ℝ) := by exact_mod_cast h1
    have cl : (0 : ℝ) ≤ (likes : ℝ) := by exact_mod_cast hl
    have cs : (0 : ℝ) ≤ (shares : ℝ) := by exact_mod_cast hs
    have h6 : (0 : ℝ) < (1e-6 : ℝ) := by norm_num
    apply mul_le_mul
    · exact Real.logb_le_logb_of_le (by norm_num) (by linarith) (by linarith)
    · apply div_le_div_of_nonneg_right ?_ hA.le
      nlinarith
    · apply div_nonneg ?_ hA.le
      nlinarith
    · exact Real.logb_nonneg (by norm_num) (by linarith)

/-- The filtering loop is an order-preserving `filterMap` of its input. -/
lemma scoreCandidates_eq_filterMap (cfg : Config) (ageOf : String → Option ℚ)
    (seen : Finset String) (items : List Item) :
    scoreCandidates cfg ageOf seen items =
      items.filterMap (processItem cfg ageOf seen) := by
  induction items with
  | nil => rfl
  | cons it rest ih =>
    simp only [scoreCandidates, List.filterMap_cons]
    cases h : processItem cfg ageOf seen it <;> simp [h, ih]

/-- Every scored record comes from an input item surviving `processItem`. -/
lemma mem_scoreCandidates {cfg : Config} {ageOf : String → Option ℚ}
    {seen : Finset String} {items : List Item} {w : Obj}
    (hw : w ∈ scoreCandidates cfg ageOf seen items) :
    ∃ it ∈ items, processItem cfg ageOf seen it = some w := by
  rw [scoreCandidates_eq_filterMap] at hw
  simpa using List.mem_filterMap.mp hw

/-- Python's `max(_, key=...)` scan splits its input into a strictly smaller
prefix, the first maximal element, and a no-larger suffix. -/
lemma pyMaxBy_split (key : Obj → ℝ) :
    ∀ (xs : List Obj) (x : Obj), ∃ l₁ l₂,
      x :: xs = l₁ ++ pyMaxBy key x xs :: l₂ ∧
        (∀ a ∈ l₁, key a < key (pyMaxBy key x xs)) ∧
        (∀ a ∈ l₂, key a ≤ key (pyMaxBy key x xs)) := by
  intro xs
  induction xs with
  | nil =>
    intro x
    exact ⟨[], [], rfl, by simp, by simp⟩
  | cons a xs ih =>
    intro x
    have hstep :
        pyMaxBy key x (a :: xs) = pyMaxBy key (if key x < key a then a else x) xs :=
      rfl
    by_cases hxa : key x < key a
    · rw [hstep, if_pos hxa]
      obtain ⟨l₁, l₂, heq, hlt, hle⟩ := ih a
      have haR : key a ≤ key (pyMaxBy key a xs) := by
        cases l₁ with
        | nil =>
          simp only [List.nil_append, List.cons.injEq] at heq
          exact le_of_eq (congrArg key heq.1)
        | cons y l₁' =>
          simp only [List.cons_append, List.cons.injEq] at heq
          have hy := hlt y (List.mem_cons_self y l₁')
          rw [← heq.1] at hy
          exact le_of_lt hy
      refine ⟨x :: l₁, l₂, ?_, ?_, hle⟩
      · rw [List.cons_append, ← heq]
      · intro b hb
        rcases List.mem_cons.mp hb with rfl | hb
        · exact lt_of_lt_of_le hxa haR
        · exact hlt b hb
    · rw [hstep, if_neg hxa]
      obtain ⟨l₁, l₂, heq, hlt, hle⟩ := ih x
      cases l₁ with
      | nil =>
        simp only [List.nil_append, List.cons.injEq] at heq
        refine ⟨[], a :: l₂, ?_, by simp, ?_⟩
        · rw [List.nil_append, ← heq.1, ← heq.2]
        · intro b hb
          rcases List.mem_cons.mp hb with rfl | hb
          · rw [← heq.1]
            exact not_lt.mp hxa
          · exact hle b hb
      | cons y l₁' =>
        simp only [List.cons_append, List.cons.injEq] at heq
        have hyR : key y < key (pyMaxBy key x xs) :=
          hlt y (List.mem_cons_self y l₁')
        have hxR : key x < key (pyMaxBy key x xs) := heq.1 ▸ hyR
        refine ⟨x :: a :: l₁', l₂, ?_, ?_, hle⟩
        · rw [List.cons_append, List.cons_append]
          conv_lhs => rw [heq.2]
        · intro b hb
          rcases List.mem_cons.mp hb with rfl | hb
          · exact hxR
          rcases List.mem_cons.mp hb with rfl | hb
          · exact lt_of_le_of_lt (not_lt.mp hxa) hxR
          · exact hlt b (List.mem_cons_of_mem y hb)

/-- The `max` scan returns an element of its input. -/
lemma pyMaxBy_mem (key : Obj → ℝ) (x : Obj) (xs : List Obj) :
    pyMaxBy key x xs ∈ x :: xs := by
  obtain ⟨l₁, l₂, heq, -, -⟩ := pyMaxBy_split key xs x
  rw [heq]
  exact List.mem_append_right _ (List.mem_cons_self _ _)

/-- C2.  A record whose stripped id is non-empty and in the seen set is
excluded by filtering: no scored record, and in particular no winner, has a
non-empty id belonging to the seen set (the id of a scored record is that of
its raw record). -/
theorem c2_seen_never_selected (cfg : Config) (ageOf : String → Option ℚ)
    (seen : Finset String) (items : List Item) (w : Obj)
    (hw : w ∈ scoreCandidates cfg ageOf seen items ∨
        pickWinner (scoreCandidates cfg ageOf seen items) = .ok w)
    (hid : vidOf w ≠ "") :
    vidOf w ∉ seen := by
  have hmem : w ∈ scoreCandidates cfg ageOf seen items := by
    rcases hw with hw | hw
    · exact hw
    · cases hs : scoreCandidates cfg ageOf seen items with
      | nil => rw [hs] at hw; simp [pickWinner] at hw
      | cons x xs =>
        rw [hs] at hw
        simp only [pickWinner, Except.ok.injEq] at hw
        rw [← hw]
        exact pyMaxBy_mem scoreKey x xs
  obtain ⟨it, hit, hpi⟩ := mem_scoreCandidates hmem
  cases it with
  | notDict => simp [processItem] at hpi
  | obj v =>
    obtain ⟨h1, created, ageH, hc, h2, ha, h3, h4, hweq⟩ := processItem_some hpi
    have hvid : vidOf w = vidOf v := by rw [hweq]; rfl
    intro hmem'
    exact h1 ⟨hvid ▸ hid, hvid ▸ hmem'⟩

/-- Witness for C2: with `seen = {"b"}`, `rec0` (id `"a"`) survives, and the
theorem yields that its id is not in the seen set. -/
theorem c2_seen_never_selected_witness :
    win0 ∈ scoreCandidates cfg0 age0 {"b"} [.obj rec0] ∧ vidOf win0 ≠ "" ∧
      vidOf win0 ∉ ({"b"} : Finset String) := by
  have hguard : ¬ maxAgeHours ⟨0, 7⟩ < (2 : ℚ) := by norm_num [maxAgeHours]
  have hsc : scoreCandidates cfg0 age0 {"b"} [.obj rec0] = [win0] := by
    simp +decide [scoreCandidates, processItem, rec0, age0, cfg0, vidOf,
      viewsOf, likesOf, sharesOf, win0, hguard]
  have hmem : win0 ∈ scoreCandidates cfg0 age0 {"b"} [.obj rec0] := by
    rw [hsc]
    exact List.mem_singleton_self win0
  have hid : vidOf win0 ≠ "" := by decide
  exact ⟨hmem, hid,
    c2_seen_never_selected cfg0 age0 {"b"} [.obj rec0] win0 (Or.inl hmem) hid⟩

/-- C4.  The winner is the first-encountered maximal record of the
filtered list (strictly greater than everything before it, at least as great
as everything after it), and the filtered list is the order-preserving
`filterMap` of the raw input (no re-sorting). -/
theorem c4_winner_first_max (cfg : Config) (ageOf : String → Option ℚ)
    (seen : Finset String) (items : List Item) (w : Obj)
    (h : pickWinner (scoreCandidates cfg ageOf seen items) = .ok w) :
    (∃ l₁ l₂, scoreCandidates cfg ageOf seen items = l₁ ++ w :: l₂ ∧
        (∀ x ∈ l₁, scoreKey x < scoreKey w) ∧
        (∀ x ∈ l₂, scoreKey x ≤ scoreKey w)) ∧
      scoreCandidates cfg ageOf seen items =
        items.filterMap (processItem cfg ageOf seen) := by
  refine ⟨?_, scoreCandidates_eq_filterMap cfg ageOf seen items⟩
  cases hs : scoreCandidates cfg ageOf seen items with
  | nil => rw [hs] at h; simp [pickWinner] at h
  | cons x xs =>
    rw [hs] at h
    simp only [pickWinner, Except.ok.injEq] at h
    obtain ⟨l₁, l₂, heq, hlt, hle⟩ := pyMaxBy_split scoreKey xs x
    rw [h] at heq hlt hle
    exact ⟨l₁, l₂, heq, hlt, hle⟩

/-- Witness for C4 at the singleton input `[rec0]`. -/
theorem c4_winner_first_max_witness :
    ∃ l₁ l₂, scoreCandidates cfg0 age0 ∅ [.obj rec0] = l₁ ++ win0 :: l₂ ∧
      (∀ x ∈ l₁, scoreKey x < scoreKey win0) ∧
      (∀ x ∈ l₂, scoreKey x ≤ scoreKey win0) := by
  have hguard : ¬ maxAgeHours ⟨0, 7⟩ < (2 : ℚ) := by norm_num [maxAgeHours]
  have hsc : scoreCandidates cfg0 age0 ∅ [.obj rec0] = [win0] := by
    simp +decide [scoreCandidates, processItem, rec0, age0, cfg0, vidOf,
      viewsOf, likesOf, sharesOf, win0, hguard]
  have hpick : pickWinner (scoreCandidates cfg0 age0 ∅ [.obj rec0]) = .ok win0 := by
    rw [hsc]
    rfl
  exact (c4_winner_first_max cfg0 age0 ∅ [.obj rec0] win0 hpick).1

/-- C5.  `pick_winner` fails exactly on an empty filtered list (so in
particular on an empty raw collection), with the fixed message naming the
three tunable knobs `VIDEOS_PER_RUN`, `MIN_VIEWS` and `MAX_AGE_DAYS`. -/
theorem c5_no_candidates (cfg : Config) (ageOf : String → Option ℚ)
    (seen : Finset String) (scored : List Obj) :
    (∀ e, pickWinner scored = .error e → scored = [] ∧ e = noCandidatesMsg) ∧
      (scored = [] → pickWinner scored = .error noCandidatesMsg) ∧
      pickWinner (scoreCandidates cfg ageOf seen []) = .error noCandidatesMsg ∧
      (∃ s t, noCandidatesMsg = s ++ "VIDEOS_PER_RUN" ++ t) ∧
      (∃ s t, noCandidatesMsg = s ++ "MIN_VIEWS" ++ t) ∧
      (∃ s t, noCandidatesMsg = s ++ "MAX_AGE_DAYS" ++ t) := by
  refine ⟨?_, ?_, rfl,
    ⟨"No candidates after filtering/scoring. Increase ",
      " or lower MIN_VIEWS / MAX_AGE_DAYS.", rfl⟩,
    ⟨"No candidates after filtering/scoring. Increase VIDEOS_PER_RUN or lower ",
      " / MAX_AGE_DAYS.", rfl⟩,
    ⟨"No candidates after filtering/scoring. Increase VIDEOS_PER_RUN or lower MIN_VIEWS / ",
      ".", rfl⟩⟩
  · intro e he
    cases scored with
    | nil =>
      simp only [pickWinner, Except.error.injEq] at he
      exact ⟨rfl, he.symm⟩
    | cons x xs => simp [pickWinner] at he
  · rintro rfl
    rfl

/-- C3.  A record surviving all five filter predicates is assigned the score
`log10(views + 1) * velocity * (engagementRate + 2*shareRate + 1e-6)` with
`velocity = views / max(ageHours, 1.0)` and `engagementRate = likes/views`,
`shareRate = shares/views` when `views > 0`, both `0` when `views = 0`
(`viewsOf`, `likesOf`, `sharesOf` are the code's absent-or-null-to-0
defaults). -/
theorem c3_score_formula (cfg : Config) (ageOf : String → Option ℚ)
    (seen : Finset String) (v w : Obj)
    (h : processItem cfg ageOf seen (.obj v) = some w)
    (hv : 0 ≤ viewsOf v) :
    ∃ created ageH, v.createTimeISO = some created ∧ ageOf created = some ageH ∧
      w.score = some
        (Real.logb 10 ((viewsOf v : ℝ) + 1) *
          ((viewsOf v : ℝ) / max ((ageH : ℚ) : ℝ) 1) *
          ((if 0 < viewsOf v then (likesOf v : ℝ) / (viewsOf v : ℝ) else 0) +
            2 * (if 0 < viewsOf v then (sharesOf v : ℝ) / (viewsOf v : ℝ) else 0) +
            1e-6)) := by
  obtain ⟨-, created, ageH, hc, -, ha, -, -, hw⟩ := processItem_some h
  refine ⟨created, ageH, hc, ha, ?_⟩
  subst hw
  have hiff : (viewsOf v ≠ 0) ↔ (0 < viewsOf v) := by omega
  simp only [scoreVal, hiff]

/-- Witness for C3 at `rec0` (100 views, 10 likes, 5 shares, age 2h). -/
theorem c3_score_formula_witness :
    (0 : Int) ≤ viewsOf rec0 ∧
      ∃ created ageH, rec0.createTimeISO = some created ∧
        age0 created = some ageH ∧
        win0.score = some
          (Real.logb 10 ((viewsOf rec0 : ℝ) + 1) *
            ((viewsOf rec0 : ℝ) / max ((ageH : ℚ) : ℝ) 1) *
            ((if 0 < viewsOf rec0 then (likesOf rec0 : ℝ) / (viewsOf rec0 : ℝ)
                else 0) +
              2 * (if 0 < viewsOf rec0 then
                  (sharesOf rec0 : ℝ) / (viewsOf rec0 : ℝ) else 0) +
              1e-6)) := by
  have hguard : ¬ maxAgeHours ⟨0, 7⟩ < (2 : ℚ) := by norm_num [maxAgeHours]
  have hpi : processItem cfg0 age0 ∅ (.obj rec0) = some win0 := by
    simp +decide [processItem, rec0, age0, cfg0, vidOf, viewsOf, likesOf,
      sharesOf, win0, hguard]
  have hv : (0 : Int) ≤ viewsOf rec0 := by decide
  exact ⟨hv, c3_score_formula cfg0 age0 ∅ rec0 win0 hpi hv⟩

/-- C9.  For non-negative views, likes and shares (and any age), the score is
non-negative, and it is monotone non-decreasing in views with the other
inputs held fixed. -/
theorem c9_nonneg_mono (views views' likes shares : Int) (ageH : ℚ)
    (h0 : 0 ≤ views) (h1 : views ≤ views') (hl : 0 ≤ likes) (hs : 0 ≤ shares) :
    0 ≤ scoreVal views likes shares ageH ∧
      scoreVal views likes shares ageH ≤ scoreVal views' likes shares ageH :=
  ⟨scoreVal_nonneg views likes shares ageH h0 hl hs,
    scoreVal_mono views views' likes shares ageH h0 h1 hl hs⟩

/-- Witness for C9 at `views = 0 ≤ 100`, `likes = 10`, `shares = 5`,
`age = 2`. -/
theorem c9_nonneg_mono_witness :
    0 ≤ scoreVal 0 10 5 2 ∧ scoreVal 0 10 5 2 ≤ scoreVal 100 10 5 2 :=
  c9_nonneg_mono 0 100 10 5 2 (by norm_num) (by norm_num) (by norm_num)
    (by norm_num)

/-- C10.  The score computation is total: every division the code performs
has a non-zero divisor (the engagement divisions run only under the `if
views` guard, and the velocity divisor `max(age_h, 1)` is at least 1), and a
future-dated record (negative age) passes the age filter whenever the
configured maximum age is non-negative, its velocity divisor being exactly 1. -/
theorem c10_total_no_div_zero (views likes shares : Int) (ageH : ℚ)
    (cfg : Config) :
    scoreValChecked views likes shares ageH =
        some (scoreVal views likes shares ageH) ∧
      (1 : ℝ) ≤ max ((ageH : ℚ) : ℝ) 1 ∧
      (ageH < 0 → max ((ageH : ℚ) : ℝ) 1 = 1) ∧
      (0 ≤ cfg.maxAgeDays → ageH < 0 → ¬ maxAgeHours cfg < ageH) := by
  have hA : max ((ageH : ℚ) : ℝ) 1 ≠ 0 :=
    ne_of_gt (lt_of_lt_of_le one_pos (le_max_right _ _))
  refine ⟨?_, le_max_right _ _, ?_, ?_⟩
  · rcases eq_or_ne views 0 with hv | hv
    · subst hv
      simp [scoreValChecked, checkedDiv, scoreVal, hA]
    · have hv' : ((views : Int) : ℝ) ≠ 0 := Int.cast_ne_zero.mpr hv
      simp [scoreValChecked, checkedDiv, scoreVal, hA, hv, hv']
  · intro hneg
    have : ((ageH : ℚ) : ℝ) < 0 := by exact_mod_cast hneg
    exact max_eq_right (by linarith)
  · intro hd hneg hlt
    have hd' : (0 : ℚ) ≤ (cfg.maxAgeDays : ℚ) := by exact_mod_cast hd
    rw [maxAgeHours] at hlt
    linarith

/-- A loop pass never reads the `score` key it writes: re-running it on the
state the first pass left behind gives the same outcome. -/
lemma processItem_afterPass (cfg : Config) (ageOf : String → Option ℚ)
    (seen : Finset String) (it : Item) :
    processItem cfg ageOf seen (afterPass cfg ageOf seen it) =
      processItem cfg ageOf seen it := by
  cases it with
  | notDict => rfl
  | obj v =>
    cases h : processItem cfg ageOf seen (.obj v) with
    | none =>
      rw [afterPass, h]
      simpa using h
    | some w =>
      obtain ⟨-, created, ageH, -, -, -, -, -, hweq⟩ := processItem_some h
      subst hweq
      rw [afterPass, h]
      exact h

/-- Re-scoring the mutated list the loop leaves behind gives the same scored
list as the first run. -/
lemma scoreCandidates_runItems (cfg : Config) (ageOf : String → Option ℚ)
    (seen : Finset String) (items : List Item) :
    scoreCandidates cfg ageOf seen (runItems cfg ageOf seen items) =
      scoreCandidates cfg ageOf seen items := by
  induction items with
  | nil => rfl
  | cons it rest ih =>
    simp only [runItems, List.map_cons] at *
    simp only [scoreCandidates, processItem_afterPass]
    cases h : processItem cfg ageOf seen it <;> simp [h, ih]

/-- C6.  With the clock held fixed, winner selection is a deterministic pure
function of its inputs: running it again — even on the mutated record state
the first run leaves behind, the only state it changes — yields the same
winner, and the score assigned to a record depends only on its views, likes,
shares and age. -/
theorem c6_select_deterministic (cfg : Config) (ageOf : String → Option ℚ)
    (seen : Finset String) (items : List Item) :
    selectWinner cfg ageOf seen (runItems cfg ageOf seen items) =
        selectWinner cfg ageOf seen items ∧
      (∀ v₁ v₂ : Obj, ∀ ageH : ℚ,
        viewsOf v₁ = viewsOf v₂ → likesOf v₁ = likesOf v₂ →
        sharesOf v₁ = sharesOf v₂ →
        scoreVal (viewsOf v₁) (likesOf v₁) (sharesOf v₁) ageH =
          scoreVal (viewsOf v₂) (likesOf v₂) (sharesOf v₂) ageH) := by
  constructor
  · rw [selectWinner, selectWinner, scoreCandidates_runItems]
  · intro v₁ v₂ ageH h1 h2 h3
    rw [h1, h2, h3]

/-- C7 counterexample: `score_candidates` mutates the records it consumes —
after one run over `[rec0]` the surviving record carries a `score` key the
raw input did not have, so the input list is not left unchanged (the claim
that the computed score lives only in a separate result is false). -/
theorem c7_counterexample :
    runItems cfg0 age0 ∅ [.obj rec0] ≠ [.obj rec0] := by
  have hguard : ¬ maxAgeHours ⟨0, 7⟩ < (2 : ℚ) := by norm_num [maxAgeHours]
  have hpi : processItem cfg0 age0 ∅ (.obj rec0) = some win0 := by
    simp +decide [processItem, rec0, age0, cfg0, vidOf, viewsOf, likesOf,
      sharesOf, win0, hguard]
  simp only [runItems, List.map_cons, List.map_nil, afterPass, hpi]
  simp [win0, rec0]

/-- C7 (amended).  `score_candidates` writes only the `score` key of each
surviving record, in place: modulo that one key, every field of every input
record — and the list's length and order — is unchanged. -/
theorem c7_frame_except_score (cfg : Config) (ageOf : String → Option ℚ)
    (seen : Finset String) (items : List Item) :
    (runItems cfg ageOf seen items).map stripScore = items.map stripScore := by
  induction items with
  | nil => rfl
  | cons it rest ih =>
    simp only [runItems, List.map_cons] at *
    rw [ih]
    congr 1
    cases it with
    | notDict => rfl
    | obj v =>
      cases h : processItem cfg ageOf seen (.obj v) with
      | none => rw [afterPass, h]
      | some w =>
        obtain ⟨-, created, ageH, -, -, -, -, -, hweq⟩ := processItem_some h
        subst hweq
        rw [afterPass, h]
        rfl

/-- C8 counterexample: a store holding the sorted JSON array
`["", "a", "a"]` of strings does not round-trip — load drops the falsy empty
string and collapses the duplicate, so save writes `["a"]`. -/
theorem c8_counterexample :
    List.Sorted (· ≤ ·) ["", "a", "a"] ∧
      saveSeenContent (loadSeenContent ["", "a", "a"]) ≠ ["", "a", "a"] := by
  constructor
  · simp [List.sorted_cons]
  · have h0 : loadSeenContent ["", "a", "a"] = {"a"} := by
      simp +decide [loadSeenContent]
    rw [saveSeenContent, h0, Finset.sort_singleton]
    decide

/-- C8 (amended).  On a store whose record is a strictly sorted (hence
duplicate-free) array of non-empty string identifiers — the canonical form
`save` itself writes — save after load is a no-op on the content. -/
theorem c8_roundtrip (arr : List String)
    (hs : List.Sorted (· < ·) arr) (hne : "" ∉ arr) :
    saveSeenContent (loadSeenContent arr) = arr := by
  have hfilter : arr.filter (fun s => s ≠ "") = arr := by
    rw [List.filter_eq_self]
    intro a ha
    exact decide_eq_true (fun h => hne (h ▸ ha))
  rw [loadSeenContent, hfilter, saveSeenContent]
  exact (List.toFinset_sort (· ≤ ·) hs.nodup).mpr (hs.le_of_lt)

/-- C1.  The dedupe-record step is reached only strictly after a successful
publish in the same run: wherever `recordDedupe` occurs in the trace a
`publishOk` event precedes it; `publishOk` occurs only when the upload
oracle succeeded; and neither a dry run nor a run whose publish step failed
ever reaches `recordDedupe` (nor, a fortiori, does any earlier stage
failure, since it forecloses `publishOk`). -/
theorem c1_record_only_after_publish (env : Env) :
    (Ev.recordDedupe ∈ (mainRun env).1 →
        ∃ l₁ l₂, (mainRun env).1 = l₁ ++ Ev.recordDedupe :: l₂ ∧
          Ev.publishOk ∈ l₁) ∧
      (Ev.publishOk ∈ (mainRun env).1 → ∃ fid, env.publish = .ok fid) ∧
      (env.dryRun = true → Ev.recordDedupe ∉ (mainRun env).1) ∧
      (∀ e, env.publish = .error e → Ev.recordDedupe ∉ (mainRun env).1) := by
  obtain ⟨cfg, ageOf, dryRun, buildDrive, loadSeen, run1, run2, download,
    inputExists, brand, outputExists, publish, saveSeen⟩ := env
  simp only [mainRun]
  cases buildDrive with
  | error e => simp
  | ok u =>
  cases u
  cases loadSeen with
  | error e => simp
  | ok p =>
  obtain ⟨seen, sfid⟩ := p
  cases run1 with
  | error e => simp
  | ok items =>
  dsimp only
  cases hpw : pickWinner (scoreCandidates cfg ageOf seen items) with
  | error e => simp
  | ok winner =>
  dsimp only
  cases hurl : winner.webVideoUrl with
  | none => simp
  | some url =>
  dsimp only
  cases dryRun with
  | true => simp
  | false =>
  cases run2 with
  | error e => simp
  | ok u =>
  cases u
  cases download with
  | error e => simp
  | ok u =>
  cases u
  cases inputExists with
  | false => simp
  | true =>
  cases brand with
  | error e => simp
  | ok u =>
  cases u
  cases outputExists with
  | false => simp
  | true =>
  cases publish with
  | error e => simp
  | ok fid =>
  by_cases hvid : vidOf winner ≠ ""
  · rw [if_pos hvid]
    cases saveSeen with
    | error e =>
      refine ⟨fun _ => ⟨[.loadDedupe, .run1Done, .scoreDone, .selectDone,
          .run2Done, .acquireDone, .transformDone, .publishOk], [],
          rfl, by simp⟩,
        fun _ => ⟨fid, rfl⟩, ?_, ?_⟩
      · intro h
        exact Bool.noConfusion h
      · intro e' he'
        exact Except.noConfusion he'
    | ok sid =>
      refine ⟨fun _ => ⟨[.loadDedupe, .run1Done, .scoreDone, .selectDone,
          .run2Done, .acquireDone, .transformDone, .publishOk], [],
          rfl, by simp⟩,
        fun _ => ⟨fid, rfl⟩, ?_, ?_⟩
      · intro h
        exact Bool.noConfusion h
      · intro e' he'
        exact Except.noConfusion he'
  · rw [if_neg hvid]
    refine ⟨by simp, fun _ => ⟨fid, rfl⟩, by simp, ?_⟩
    intro e' he'
    exact Except.noConfusion he'

/-- Witness for C8 (amended) at the store content `["a", "b"]`. -/
theorem c8_roundtrip_witness :
    List.Sorted (· < ·) ["a", "b"] ∧ "" ∉ (["a", "b"] : List String) ∧
      saveSeenContent (loadSeenContent ["a", "b"]) = ["a", "b"] := by
  have hs : List.Sorted (· < ·) (["a", "b"] : List String) := by
    simp [List.sorted_cons, String.lt_iff_toList_lt]
    decide
  have hne : "" ∉ (["a", "b"] : List String) := by decide
  exact ⟨hs, hne, c8_roundtrip ["a", "b"] hs hne⟩

end Pipeline
